import Mathlib

/-!
Shallow embedding of the active-ETF analyzer core (src/modules/analyzer.py).

Modelling conventions:
* A pandas DataFrame is a `RawTable`: a list of column names and a list of
  rows, where each row is an association list from column name to `Value`.
  A missing association models a NaN cell.
* Float weights are modelled as exact rationals; `.round(4)` is modelled by
  `round4` (round half to even, as numpy does).
* A raised exception is modelled by `Except.error ()`.
* `datetime` dates are modelled by their day number relative to 1970-01-01
  (the standard civil-calendar conversion), so that `weekday` is day number
  plus 3 modulo 7 (Python convention: Monday = 0, Sunday = 6).
-/

namespace ETF

/-- A cell value of a table: either a string or a (rational) number. -/
inductive Value
  | str (s : String)
  | num (q : ℚ)
deriving DecidableEq

/-- A row of a table: an association list from column names to cell values.
A missing key models a NaN cell. -/
abbrev Row := List (String × Value)

/-- A pandas DataFrame: column names plus rows. -/
structure RawTable where
  cols : List String
  rows : List Row
deriving DecidableEq

/-- Cell lookup in a row; `none` models NaN / missing. -/
def getVal (r : Row) (c : String) : Option Value :=
  (r.find? (fun p => decide (p.1 = c))).map (fun p => p.2)

/-- The numeric content of a cell; non-numeric or missing gives `none`. -/
def valNum : Option Value → Option ℚ
  | some (Value.num q) => some q
  | _ => none

/-- Numeric cell lookup; non-numeric or missing cells give `none`. -/
def getNum (r : Row) (c : String) : Option ℚ := valNum (getVal r c)

/-- Round a rational to an integer, ties to even (numpy/Python rounding). -/
def roundHalfEven (q : ℚ) : ℤ :=
  let f := ⌊q⌋
  if q - f < 1/2 then f
  else if (1 : ℚ)/2 < q - f then f + 1
  else if Int.emod f 2 = 0 then f else f + 1

/-- `x.round(4)` of the source, on the exact-rational model. -/
def round4 (q : ℚ) : ℚ := (roundHalfEven (q * 10000) : ℚ) / 10000

/-- `pd.concat(holdings_list, ignore_index=True)`: all rows in order; the
column set is the union (membership is all the code ever uses). -/
def concatTables (ts : List RawTable) : RawTable :=
  ⟨(ts.map RawTable.cols).flatten, (ts.map RawTable.rows).flatten⟩

/-- The weight-column candidate names tried in order (analyzer.py line 74). -/
def weightCandidates : List String := ["비중", "비중(%)", "Weight", "구성비중"]

/-- The stock-name-column candidate names tried in order (line 91). -/
def nameCandidates : List String := ["종목명", "종목", "Name", "구성종목명"]

/-- First candidate that is one of the table columns (the for-loops at
lines 74-77 and 91-94). -/
def findCol (cands cols : List String) : Option String :=
  cands.find? (fun c => decide (c ∈ cols))

/-- `combined_df['평가금액'].sum()` (NaN summed as 0, as pandas skips them). -/
def totalValue (t : RawTable) : ℚ :=
  (t.rows.map (fun r => (getNum r "평가금액").getD 0)).sum

/-- Lines 82-85: derive a `비중` column from `평가금액` when no weight column
matched. Rows with a missing/non-numeric amount keep a NaN weight. -/
def deriveWeights (t : RawTable) : RawTable :=
  let total := totalValue t
  ⟨t.cols ++ ["비중"],
   t.rows.map (fun r =>
     match getNum r "평가금액" with
     | some a => r ++ [("비중", Value.num (round4 (a / total * 100)))]
     | none => r)⟩

/-- Lines 73-87: resolve the weight column, falling back to the derived
`비중` column; `none` models the empty-result return at line 87. -/
def resolveWeight (t : RawTable) : Option (RawTable × String) :=
  match findCol weightCandidates t.cols with
  | some w => some (t, w)
  | none => if "평가금액" ∈ t.cols then some (deriveWeights t, "비중") else none

/-- One row of the consensus table (StockName, TotalWeight, AvgWeight,
ETF_Count, Rank). -/
structure ConsensusRow where
  stockName : Value
  totalWeight : ℚ
  avgWeight : ℚ
  etfCount : ℕ
  rank : ℕ
deriving DecidableEq

/-- Ordering used by `sort_values('TotalWeight', ascending=False)`. -/
def conGE (a b : ConsensusRow) : Prop := b.totalWeight ≤ a.totalWeight

instance : DecidableRel conGE :=
  fun a b => inferInstanceAs (Decidable (b.totalWeight ≤ a.totalWeight))

instance : IsTotal ConsensusRow conGE :=
  ⟨fun a b => (le_total b.totalWeight a.totalWeight).imp id id⟩

instance : IsTrans ConsensusRow conGE :=
  ⟨fun _ _ _ h1 h2 => le_trans h2 h1⟩

/-- Ascending order on cell values, used for the group keys: pandas
`groupby(..., sort=True)` sorts the group keys. -/
def valueLE : Value → Value → Prop
  | Value.num a, Value.num b => a ≤ b
  | Value.num _, Value.str _ => True
  | Value.str _, Value.num _ => False
  | Value.str a, Value.str b => a ≤ b

instance : DecidableRel valueLE :=
  fun a b =>
    match a, b with
    | Value.num a, Value.num b => inferInstanceAs (Decidable (a ≤ b))
    | Value.num _, Value.str _ => inferInstanceAs (Decidable True)
    | Value.str _, Value.num _ => inferInstanceAs (Decidable False)
    | Value.str a, Value.str b => inferInstanceAs (Decidable (a ≤ b))

instance : IsTotal Value valueLE :=
  ⟨fun a b => by
    cases a <;> cases b <;> simp [valueLE] <;> exact le_total _ _⟩

instance : IsTrans Value valueLE :=
  ⟨fun a b c h1 h2 => by
    cases a <;> cases b <;> cases c <;> simp_all [valueLE] <;> exact le_trans h1 h2⟩

/-- The weights of the group of rows whose name cell equals `k` (pandas
drops NaN weights from sum/mean/count). -/
def groupWeights (rows : List Row) (ncol wcol : String) (k : Value) : List ℚ :=
  (rows.filter (fun r => decide (getVal r ncol = some k))).filterMap
    (fun r => getNum r wcol)

/-- The aggregated row for one group key (lines 103-107); rank filled later. -/
def mkConsensusEntry (rows : List Row) (ncol wcol : String) (k : Value) :
    ConsensusRow :=
  let ws := groupWeights rows ncol wcol k
  ⟨k, ws.sum, ws.sum / (ws.length : ℚ), ws.length, 0⟩

/-- `consensus_df['Rank'] = range(1, len(consensus_df) + 1)` (line 111). -/
def assignRanks : ℕ → List ConsensusRow → List ConsensusRow
  | _, [] => []
  | i, c :: l => { c with rank := i } :: assignRanks (i + 1) l

/-- Lines 103-111: group by the name column (keys sorted, NaN names
dropped), aggregate sum/mean/count of the weight column, sort by total
weight descending, assign ranks 1..N. -/
def buildConsensus (rows : List Row) (ncol wcol : String) : List ConsensusRow :=
  let keys := List.insertionSort valueLE
    ((rows.filterMap (fun r => getVal r ncol)).dedup)
  let pres := keys.map (mkConsensusEntry rows ncol wcol)
  assignRanks 1 (List.insertionSort conGE pres)

/-- One row of the diff table. -/
structure DiffRow where
  stockName : Option Value
  totalWeight : ℚ
  prevWeight : ℚ
  weightDiff : ℚ
  status : String
deriving DecidableEq

/-- Ordering used by `sort_values('Weight_Diff', ascending=False)`. -/
def diffGE (a b : DiffRow) : Prop := b.weightDiff ≤ a.weightDiff

instance : DecidableRel diffGE :=
  fun a b => inferInstanceAs (Decidable (b.weightDiff ≤ a.weightDiff))

instance : IsTotal DiffRow diffGE :=
  ⟨fun a b => (le_total b.weightDiff a.weightDiff).imp id id⟩

instance : IsTrans DiffRow diffGE :=
  ⟨fun _ _ _ h1 h2 => le_trans h2 h1⟩

/-- `classify_status` (lines 159-165), applied to the NaN-filled weights. -/
def classifyStatus (tw pw : ℚ) : String :=
  if pw = 0 ∧ 0 < tw then "New"
  else if tw = 0 ∧ 0 < pw then "Out"
  else "Maintain"

/-- `prev_df[['StockName', 'TotalWeight']]` (line 143): raises (KeyError)
when either column is missing, else the per-row (name, weight) cells. -/
def selectPrev (p : RawTable) : Except Unit (List (Option Value × Option ℚ)) :=
  if "StockName" ∈ p.cols ∧ "TotalWeight" ∈ p.cols then
    Except.ok (p.rows.map (fun r => (getVal r "StockName", getNum r "TotalWeight")))
  else Except.error ()

/-- `pd.merge(..., how='outer')` on the key (first component): each left
row paired with every matching right row (or a NaN right weight when no
match), then the unmatched right rows with a NaN left weight. -/
def mergeOuter (tp pp : List (Option Value × Option ℚ)) :
    List (Option Value × Option ℚ × Option ℚ) :=
  ((tp.map (fun a =>
      let ms := pp.filter (fun b => decide (b.1 = a.1))
      if ms.isEmpty then [(a.1, a.2, (none : Option ℚ))]
      else ms.map (fun b => (a.1, a.2, b.2)))).flatten)
  ++ (pp.filter (fun b => !(tp.any (fun a => decide (a.1 = b.1))))).map
      (fun b => (b.1, (none : Option ℚ), b.2))

/-- `_calculate_diff` (lines 128-178). -/
def calculate_diff (today : List ConsensusRow) (prev : RawTable) :
    Except Unit (List DiffRow) := do
  let pp ← selectPrev prev
  let tp := today.map (fun c =>
    ((some c.stockName : Option Value), (some c.totalWeight : Option ℚ)))
  let rows := (mergeOuter tp pp).map (fun m =>
    let tw := m.2.1.getD 0
    let pw := m.2.2.getD 0
    DiffRow.mk m.1 tw pw (round4 (tw - pw)) (classifyStatus tw pw))
  Except.ok (List.insertionSort diffGE rows)

/-- Lines 119-123: the no-previous-data path; consensus order is kept and
every row gets `Weight_Diff = 0.0`, `Status = 'New'`, `Prev_Weight = 0.0`. -/
def newPathDiff (con : List ConsensusRow) : List DiffRow :=
  con.map (fun c => DiffRow.mk (some c.stockName) c.totalWeight 0 0 "New")

/-- `prev_df.empty`: some axis has length 0. -/
def tableIsEmpty (t : RawTable) : Bool := t.rows.isEmpty || t.cols.isEmpty

/-- `analyze_holdings` (lines 49-125). -/
def analyze_holdings (hl : List RawTable) (prev : Option RawTable) :
    Except Unit (List ConsensusRow × List DiffRow) :=
  if hl.isEmpty then Except.ok ([], [])
  else
    let com := concatTables hl
    match resolveWeight com with
    | none => Except.ok ([], [])
    | some (tbl, wcol) =>
      match findCol nameCandidates tbl.cols with
      | none => Except.ok ([], [])
      | some ncol =>
        let con := buildConsensus tbl.rows ncol wcol
        match prev with
        | none => Except.ok (con, newPathDiff con)
        | some p =>
          if tableIsEmpty p then Except.ok (con, newPathDiff con)
          else (calculate_diff con p).map (fun d => (con, d))

/-- `save_daily_data` writes the consensus table as a csv with these
columns; this is the table `load_previous_data` reads back. -/
def toSnapshot (con : List ConsensusRow) : RawTable :=
  ⟨["StockName", "TotalWeight", "AvgWeight", "ETF_Count", "Rank"],
   con.map (fun c =>
     [("StockName", c.stockName),
      ("TotalWeight", Value.num c.totalWeight),
      ("AvgWeight", Value.num c.avgWeight),
      ("ETF_Count", Value.num (c.etfCount : ℚ)),
      ("Rank", Value.num (c.rank : ℚ))])⟩

/-- `get_top_holdings` (line 204). -/
def get_top_holdings (con : List ConsensusRow) (n : ℕ) : List ConsensusRow :=
  con.take n

/-- `get_top_changes` (lines 209-213). -/
def get_top_changes (diff : List DiffRow) (n : ℕ) : List DiffRow :=
  (diff.filter (fun d => decide (0 < d.weightDiff))).take n

/-- `get_new_entries` (line 216). -/
def get_new_entries (diff : List DiffRow) : List DiffRow :=
  diff.filter (fun d => decide (d.status = "New"))

/-- `get_exits` (line 221). -/
def get_exits (diff : List DiffRow) : List DiffRow :=
  diff.filter (fun d => decide (d.status = "Out"))

/-! Date arithmetic for `load_previous_data` (lines 17-46), via the civil
calendar: a date is its day count from 1970-01-01. -/

/-- Python leap-year rule. -/
def isLeapYear (y : ℤ) : Bool :=
  (decide (Int.emod y 4 = 0) && !(decide (Int.emod y 100 = 0)))
    || decide (Int.emod y 400 = 0)

/-- Days in a month of the proleptic Gregorian calendar. -/
def daysInMonth (y m : ℤ) : ℤ :=
  if m = 2 then (if isLeapYear y then 29 else 28)
  else if m = 4 ∨ m = 6 ∨ m = 9 ∨ m = 11 then 30
  else 31

/-- Days from 1970-01-01 of a civil date (standard conversion). -/
def daysFromCivil (y m d : ℤ) : ℤ :=
  let y1 := if m ≤ 2 then y - 1 else y
  let era := Int.ediv y1 400
  let yoe := y1 - era * 400
  let mp := if 2 < m then m - 3 else m + 9
  let doy := Int.ediv (153 * mp + 2) 5 + d - 1
  let doe := yoe * 365 + Int.ediv yoe 4 - Int.ediv yoe 100 + doy
  era * 146097 + doe - 719468

/-- Civil date (year, month, day) of a day count from 1970-01-01. -/
def civilFromDays (z0 : ℤ) : ℤ × ℤ × ℤ :=
  let z := z0 + 719468
  let era := Int.ediv z 146097
  let doe := z - era * 146097
  let yoe := Int.ediv
    (doe - Int.ediv doe 1460 + Int.ediv doe 36524 - Int.ediv doe 146096) 365
  let y := yoe + era * 400
  let doy := doe - (365 * yoe + Int.ediv yoe 4 - Int.ediv yoe 100)
  let mp := Int.ediv (5 * doy + 2) 153
  let d := doy - Int.ediv (153 * mp + 2) 5 + 1
  let m := if mp < 10 then mp + 3 else mp - 9
  (if m ≤ 2 then y + 1 else y, m, d)

/-- Python `date.weekday()`: Monday = 0 .. Sunday = 6 (1970-01-01 was a
Thursday). -/
def weekdayPy (z : ℤ) : ℤ := (z + 3) % 7

/-- The while-loop at lines 35-36, with fuel: it needs at most two
iterations since two weekend days never make three in a row. -/
def skipWeekend : ℕ → ℤ → ℤ
  | 0, z => z
  | n + 1, z => if 5 ≤ weekdayPy z then skipWeekend n (z - 1) else z

/-- Lines 31-38: step back one day, then skip back over the weekend. -/
def prevBusinessDay (z : ℤ) : ℤ := skipWeekend 7 (z - 1)

/-- `datetime.strptime(date, "%Y%m%d")`, as a day count; `none` models the
ValueError raised on a malformed date string. -/
def parseDate (s : String) : Option ℤ :=
  if s.length = 8 ∧ s.toList.all Char.isDigit then
    match (s.take 4).toNat?, ((s.drop 4).take 2).toNat?, (s.drop 6).toNat? with
    | some y, some m, some d =>
        if 1 ≤ m ∧ m ≤ 12 ∧ 1 ≤ d ∧ (d : ℤ) ≤ daysInMonth y m then
          some (daysFromCivil y m d)
        else none
    | _, _, _ => none
  else none

/-- Zero-pad a natural number to two digits. -/
def pad2 (n : ℕ) : String := if n < 10 then "0" ++ toString n else toString n

/-- `strftime("%Y%m%d")` of a day count. -/
def formatDate (z : ℤ) : String :=
  let c := civilFromDays z
  toString c.1.toNat ++ pad2 c.2.1.toNat ++ pad2 c.2.2.toNat

/-- The previous-date key computed by `load_previous_data` for a given
date string (`none` models the ValueError on a malformed string). -/
def prevDateStr (s : String) : Option String :=
  (parseDate s).map (fun z => formatDate (prevBusinessDay z))

/-- `load_previous_data` (lines 17-46), over an abstract file store: the
outer `none` models the strptime ValueError; `some none` is the
missing-file (absent) outcome; `some (some t)` is a loaded table. -/
def load_previous_data (store : String → Option RawTable) (s : String) :
    Option (Option RawTable) :=
  (prevDateStr s).map store

/-! Concrete inputs used by witnesses and counterexamples. -/

/-- A single holdings table with one row: stock X, weight 5. -/
def sampleHoldings : List RawTable :=
  [⟨["종목명", "비중"],
    [[("종목명", Value.str "X"), ("비중", Value.num 5)]]⟩]

/-- One table; stock B occurs first, then A, with equal weights. -/
def tieHoldings : List RawTable :=
  [⟨["종목명", "비중"],
    [[("종목명", Value.str "B"), ("비중", Value.num 5)],
     [("종목명", Value.str "A"), ("비중", Value.num 5)]]⟩]

/-- One table with no weight column but a valuation-amount column:
amounts 100 and 300. -/
def amountHoldings : List RawTable :=
  [⟨["종목명", "평가금액"],
    [[("종목명", Value.str "X"), ("평가금액", Value.num 100)],
     [("종목명", Value.str "Y"), ("평가금액", Value.num 300)]]⟩]

/-- A non-empty prior snapshot lacking the StockName/TotalWeight columns. -/
def badPrev : RawTable := ⟨["Foo"], [[("Foo", Value.num 1)]]⟩

/-- A today consensus table containing a zero-weight stock B. -/
def zeroTodayCon : List ConsensusRow :=
  [⟨Value.str "A", 2, 2, 1, 1⟩, ⟨Value.str "B", 0, 0, 1, 2⟩]

/-- A prior snapshot holding only stock A with weight 1. -/
def prevA1 : RawTable :=
  ⟨["StockName", "TotalWeight"],
   [[("StockName", Value.str "A"), ("TotalWeight", Value.num 1)]]⟩

/-- A one-row today consensus table (stock A, weight 2). -/
def todayConA : List ConsensusRow := [⟨Value.str "A", 2, 2, 1, 1⟩]

/-- A prior snapshot holding only stock B with weight 1. -/
def prevB1 : RawTable :=
  ⟨["StockName", "TotalWeight"],
   [[("StockName", Value.str "B"), ("TotalWeight", Value.num 1)]]⟩

/-- A two-stock consensus table (the spec §8 scenario values). -/
def selfCon : List ConsensusRow :=
  [⟨Value.str "A", 7, 7/2, 2, 1⟩, ⟨Value.str "B", 3, 3, 1, 2⟩]

/-- Two holdings tables: ETF 1 holds X 5% and Y 3%, ETF 2 holds X 2%
(the spec section 8 scenario). -/
def twoTables : List RawTable :=
  [⟨["종목명", "비중"],
    [[("종목명", Value.str "X"), ("비중", Value.num 5)],
     [("종목명", Value.str "Y"), ("비중", Value.num 3)]]⟩,
   ⟨["종목명", "비중"],
    [[("종목명", Value.str "X"), ("비중", Value.num 2)]]⟩]

/-- The consensus table computed from twoTables. -/
def twoCon : List ConsensusRow :=
  [⟨Value.str "X", 7, 7/2, 2, 1⟩, ⟨Value.str "Y", 3, 3, 1, 2⟩]

/-- The consensus table computed from tieHoldings. -/
def tieCon : List ConsensusRow :=
  [⟨Value.str "A", 5, 5, 1, 1⟩, ⟨Value.str "B", 5, 5, 1, 2⟩]

/-- The extracted (name, weight) pairs of prevB1. -/
def pairPP : List (Option Value × Option ℚ) :=
  [(some (Value.str "B"), some 1)]

/-- The diff of todayConA against prevB1. -/
def pairDiff : List DiffRow :=
  [DiffRow.mk (some (Value.str "A")) 2 0 2 "New",
   DiffRow.mk (some (Value.str "B")) 0 1 (-1) "Out"]

/-! Helper lemmas. -/

theorem isEmpty_false_of_ne {α : Type} {l : List α} (h : l ≠ []) :
    l.isEmpty = false := by
  cases l with
  | nil => exact absurd rfl h
  | cons a t => rfl

theorem analyze_holdings_noresolve {hl : List RawTable} (prev : Option RawTable)
    (h : hl ≠ []) (hw : resolveWeight (concatTables hl) = none) :
    analyze_holdings hl prev = Except.ok ([], []) := by
  unfold analyze_holdings
  simp [isEmpty_false_of_ne h, hw]

theorem analyze_holdings_noname {hl : List RawTable} {tbl : RawTable}
    {wcol : String} (prev : Option RawTable) (h : hl ≠ [])
    (hw : resolveWeight (concatTables hl) = some (tbl, wcol))
    (hn : findCol nameCandidates tbl.cols = none) :
    analyze_holdings hl prev = Except.ok ([], []) := by
  unfold analyze_holdings
  simp [isEmpty_false_of_ne h, hw, hn]

theorem analyze_holdings_none_eq {hl : List RawTable} {tbl : RawTable}
    {wcol ncol : String} (h : hl ≠ [])
    (hw : resolveWeight (concatTables hl) = some (tbl, wcol))
    (hn : findCol nameCandidates tbl.cols = some ncol) :
    analyze_holdings hl none =
      Except.ok (buildConsensus tbl.rows ncol wcol,
        newPathDiff (buildConsensus tbl.rows ncol wcol)) := by
  unfold analyze_holdings
  simp [isEmpty_false_of_ne h, hw, hn]

theorem analyze_holdings_some_empty_eq {hl : List RawTable} {tbl : RawTable}
    {wcol ncol : String} {p : RawTable} (h : hl ≠ [])
    (hw : resolveWeight (concatTables hl) = some (tbl, wcol))
    (hn : findCol nameCandidates tbl.cols = some ncol)
    (hp : tableIsEmpty p = true) :
    analyze_holdings hl (some p) =
      Except.ok (buildConsensus tbl.rows ncol wcol,
        newPathDiff (buildConsensus tbl.rows ncol wcol)) := by
  unfold analyze_holdings
  simp [isEmpty_false_of_ne h, hw, hn, hp]

theorem analyze_holdings_some_eq {hl : List RawTable} {tbl : RawTable}
    {wcol ncol : String} {p : RawTable} (h : hl ≠ [])
    (hw : resolveWeight (concatTables hl) = some (tbl, wcol))
    (hn : findCol nameCandidates tbl.cols = some ncol)
    (hp : tableIsEmpty p = false) :
    analyze_holdings hl (some p) =
      (calculate_diff (buildConsensus tbl.rows ncol wcol) p).map
        (fun d => (buildConsensus tbl.rows ncol wcol, d)) := by
  unfold analyze_holdings
  simp [isEmpty_false_of_ne h, hw, hn, hp]

@[simp]
theorem getVal_nil (c : String) : getVal [] c = none := rfl

@[simp]
theorem getVal_cons (k : String) (v : Value) (t : Row) (c : String) :
    getVal ((k, v) :: t) c = if k = c then some v else getVal t c := by
  unfold getVal
  by_cases h : k = c
  · rw [List.find?_cons_of_pos _ (by simpa using h)]
    simp [h]
  · rw [List.find?_cons_of_neg _ (by simpa using h)]
    simp [h]

@[simp]
theorem valNum_none : valNum none = none := rfl

@[simp]
theorem valNum_str (s : String) : valNum (some (Value.str s)) = none := rfl

@[simp]
theorem valNum_num (q : ℚ) : valNum (some (Value.num q)) = some q := rfl

theorem round4_intCast (n : ℤ) : round4 (n : ℚ) = n := by
  unfold round4 roundHalfEven
  have h1 : ((n : ℚ) * 10000) = ((n * 10000 : ℤ) : ℚ) := by push_cast; ring
  rw [h1, Int.floor_intCast]
  rw [if_pos (by norm_num)]
  push_cast
  norm_num

theorem round4_zero : round4 0 = 0 := by
  have h := round4_intCast 0
  simpa using h

theorem findCol_append_none {cands cols : List String} {c : String}
    (h : findCol cands cols = none) (hc : c ∉ cands) :
    findCol cands (cols ++ [c]) = none := by
  unfold findCol at h ⊢
  rw [List.find?_eq_none] at h ⊢
  intro x hx
  have hx2 := h x hx
  simp only [decide_eq_true_eq] at hx2 ⊢
  intro hmem
  rcases List.mem_append.mp hmem with h1 | h2
  · exact hx2 h1
  · rw [List.mem_singleton] at h2
    subst h2
    exact hc hx

theorem getVal_append_self {r : Row} {c : String} {v : Value}
    (h : getVal r c = none) : getVal (r ++ [(c, v)]) c = some v := by
  unfold getVal at h ⊢
  have hf : r.find? (fun p => decide (p.1 = c)) = none := by
    rcases hx : r.find? (fun p => decide (p.1 = c)) with _ | q
    · exact hx
    · rw [hx] at h
      simp at h
  rw [List.find?_append, hf]
  simp

theorem deriveWeights_rows_weights {t : RawTable}
    (h : ∀ r ∈ t.rows, getVal r "비중" = none) :
    (deriveWeights t).rows.map (fun r => getNum r "비중") =
      t.rows.map (fun r =>
        (getNum r "평가금액").map (fun a => round4 (a / totalValue t * 100))) := by
  unfold deriveWeights
  simp only [List.map_map]
  apply List.map_congr_left
  intro r hr
  simp only [Function.comp_apply]
  rcases ha : getNum r "평가금액" with _ | a
  · simp only [ha, Option.map_none]
    unfold getNum
    rw [h r hr]
    rfl
  · simp only [ha, Option.map_some]
    unfold getNum
    rw [getVal_append_self (h r hr)]
    rfl

theorem sample_analyze_eval :
    analyze_holdings sampleHoldings none =
      Except.ok ([ConsensusRow.mk (Value.str "X") 5 5 1 1],
                 [DiffRow.mk (some (Value.str "X")) 5 0 0 "New"]) := by
  with_unfolding_all rfl

theorem filter_key_nil {κ α : Type} [DecidableEq κ] {l : List (κ × α)} {k : κ}
    (h : k ∉ l.map Prod.fst) : l.filter (fun b => decide (b.1 = k)) = [] := by
  rw [List.filter_eq_nil_iff]
  intro b hb
  simp only [decide_eq_true_eq]
  intro he
  exact h (he ▸ List.mem_map_of_mem Prod.fst hb)

theorem filter_key_find {κ α : Type} [DecidableEq κ] {l : List (κ × α)} {k : κ}
    (hnd : (l.map Prod.fst).Nodup) :
    l.filter (fun b => decide (b.1 = k)) =
      (l.find? (fun b => decide (b.1 = k))).toList := by
  induction l with
  | nil => rfl
  | cons b t ih =>
    rw [List.map_cons, List.nodup_cons] at hnd
    by_cases hb : b.1 = k
    · rw [List.filter_cons_of_pos (by simpa using hb),
          List.find?_cons_of_pos _ (by simpa using hb)]
      have ht : t.filter (fun x => decide (x.1 = k)) = [] :=
        filter_key_nil (hb ▸ hnd.1)
      rw [ht]
      rfl
    · rw [List.filter_cons_of_neg (by simpa using hb),
          List.find?_cons_of_neg _ (by simpa using hb)]
      exact ih hnd.2

theorem find_key_self {κ α : Type} [DecidableEq κ] {l : List (κ × α)} {a : κ × α}
    (hnd : (l.map Prod.fst).Nodup) (ha : a ∈ l) :
    l.find? (fun b => decide (b.1 = a.1)) = some a := by
  induction l with
  | nil => exact absurd ha (List.not_mem_nil a)
  | cons b t ih =>
    rw [List.map_cons, List.nodup_cons] at hnd
    by_cases hb : b.1 = a.1
    · rw [List.find?_cons_of_pos _ (by simpa using hb)]
      rcases List.mem_cons.mp ha with rfl | hat
      · rfl
      · exact absurd (hb ▸ List.mem_map_of_mem Prod.fst hat) hnd.1
    · rw [List.find?_cons_of_neg _ (by simpa using hb)]
      rcases List.mem_cons.mp ha with rfl | hat
      · exact absurd rfl hb
      · exact ih hnd.2 hat

/-- With unique keys on the right, the outer merge pairs each left row with
its (at most one) right match and appends the unmatched right rows. -/
theorem mergeOuter_eq_of_nodup {tp pp : List (Option Value × Option ℚ)}
    (hnd : (pp.map Prod.fst).Nodup) :
    mergeOuter tp pp =
      tp.map (fun a =>
        (a.1, a.2, (pp.find? (fun b => decide (b.1 = a.1))).bind Prod.snd))
      ++ (pp.filter (fun b => !(tp.any (fun a => decide (a.1 = b.1))))).map
          (fun b => (b.1, (none : Option ℚ), b.2)) := by
  unfold mergeOuter
  congr 1
  induction tp with
  | nil => rfl
  | cons a t ih =>
    simp only [List.map_cons, List.flatten_cons]
    rw [filter_key_find hnd, ih]
    rcases hf : pp.find? (fun b => decide (b.1 = a.1)) with _ | b
    · simp [hf]
    · simp [hf]

theorem mergeOuter_keys_of_nodup {tp pp : List (Option Value × Option ℚ)}
    (hnd : (pp.map Prod.fst).Nodup) :
    (mergeOuter tp pp).map Prod.fst =
      tp.map Prod.fst
      ++ (pp.filter (fun b => !(tp.any (fun a => decide (a.1 = b.1))))).map
          Prod.fst := by
  rw [mergeOuter_eq_of_nodup hnd, List.map_append, List.map_map, List.map_map]
  rfl

theorem calculate_diff_eq {today : List ConsensusRow} {prev : RawTable}
    {pp : List (Option Value × Option ℚ)}
    (hsel : selectPrev prev = Except.ok pp) :
    calculate_diff today prev = Except.ok (List.insertionSort diffGE
      ((mergeOuter (today.map (fun c =>
          ((some c.stockName : Option Value),
           (some c.totalWeight : Option ℚ)))) pp).map
        (fun m => DiffRow.mk m.1 (m.2.1.getD 0) (m.2.2.getD 0)
          (round4 (m.2.1.getD 0 - m.2.2.getD 0))
          (classifyStatus (m.2.1.getD 0) (m.2.2.getD 0))))) := by
  unfold calculate_diff
  rw [hsel]
  rfl

theorem classifyStatus_self (tw : ℚ) : classifyStatus tw tw = "Maintain" := by
  unfold classifyStatus
  rw [if_neg (by rintro ⟨h1, h2⟩; rw [h1] at h2; exact lt_irrefl 0 h2),
      if_neg (by rintro ⟨h1, h2⟩; rw [h1] at h2; exact lt_irrefl 0 h2)]

theorem selectPrev_toSnapshot (con : List ConsensusRow) :
    selectPrev (toSnapshot con) =
      Except.ok (con.map (fun c =>
        ((some c.stockName : Option Value),
         (some c.totalWeight : Option ℚ)))) := by
  unfold selectPrev toSnapshot
  rw [if_pos (by simp)]
  simp only [List.map_map]
  congr 1

theorem todayPairs_keys_nodup {con : List ConsensusRow}
    (hnd : (con.map (fun c => c.stockName)).Nodup) :
    ((con.map (fun c =>
        ((some c.stockName : Option Value),
         (some c.totalWeight : Option ℚ)))).map Prod.fst).Nodup := by
  rw [List.map_map]
  have h2 : (con.map (Prod.fst ∘ fun c : ConsensusRow =>
      ((some c.stockName : Option Value), (some c.totalWeight : Option ℚ))))
      = (con.map (fun c => c.stockName)).map some := by
    rw [List.map_map]
    rfl
  rw [h2]
  exact hnd.map (Option.some_injective _)

theorem mem_mergeOuter_part {tp pp : List (Option Value × Option ℚ)}
    {m : Option Value × Option ℚ × Option ℚ}
    (hnp : (pp.map Prod.fst).Nodup) (hm : m ∈ mergeOuter tp pp) :
    (∃ a ∈ tp, m = (a.1, a.2,
        (pp.find? (fun b => decide (b.1 = a.1))).bind Prod.snd)) ∨
    (∃ b ∈ pp, m = (b.1, none, b.2) ∧ b.1 ∉ tp.map Prod.fst) := by
  rw [mergeOuter_eq_of_nodup hnp] at hm
  rcases List.mem_append.mp hm with h | h
  · rcases List.mem_map.mp h with ⟨a, ha, rfl⟩
    exact Or.inl ⟨a, ha, rfl⟩
  · rcases List.mem_map.mp h with ⟨b, hb, rfl⟩
    rcases List.mem_filter.mp hb with ⟨hbm, hcond⟩
    refine Or.inr ⟨b, hbm, rfl, ?_⟩
    intro hin
    rcases List.mem_map.mp hin with ⟨a, ham, hak⟩
    have hany : tp.any (fun a => decide (a.1 = b.1)) = true :=
      List.any_eq_true.mpr ⟨a, ham, by simp [hak]⟩
    simp [hany] at hcond

theorem mem_keys_mergeOuter {tp pp : List (Option Value × Option ℚ)}
    (hnp : (pp.map Prod.fst).Nodup) (k : Option Value) :
    k ∈ (mergeOuter tp pp).map Prod.fst ↔
      k ∈ tp.map Prod.fst ∨ k ∈ pp.map Prod.fst := by
  rw [mergeOuter_keys_of_nodup hnp, List.mem_append]
  constructor
  · rintro (h | h)
    · exact Or.inl h
    · rcases List.mem_map.mp h with ⟨b, hb, rfl⟩
      exact Or.inr (List.mem_map_of_mem _ (List.mem_filter.mp hb).1)
  · rintro (h | h)
    · exact Or.inl h
    · by_cases htp : k ∈ tp.map Prod.fst
      · exact Or.inl htp
      · right
        rcases List.mem_map.mp h with ⟨b, hb, rfl⟩
        apply List.mem_map_of_mem
        rw [List.mem_filter]
        refine ⟨hb, ?_⟩
        have hany : tp.any (fun a => decide (a.1 = b.1)) = false := by
          rw [List.any_eq_false]
          intro a ha
          simp only [decide_eq_true_eq]
          intro hak
          exact htp (hak ▸ List.mem_map_of_mem Prod.fst ha)
        simp [hany]

theorem keys_mergeOuter_nodup {tp pp : List (Option Value × Option ℚ)}
    (hnt : (tp.map Prod.fst).Nodup) (hnp : (pp.map Prod.fst).Nodup) :
    ((mergeOuter tp pp).map Prod.fst).Nodup := by
  rw [mergeOuter_keys_of_nodup hnp]
  refine List.Nodup.append hnt ?_ ?_
  · exact List.Nodup.sublist
      (List.Sublist.map Prod.fst (List.filter_sublist pp)) hnp
  · intro k hk1 hk2
    rcases List.mem_map.mp hk2 with ⟨b, hb, rfl⟩
    rcases List.mem_filter.mp hb with ⟨_, hcond⟩
    rcases List.mem_map.mp hk1 with ⟨a, ha, hak⟩
    have hany : tp.any (fun a => decide (a.1 = b.1)) = true :=
      List.any_eq_true.mpr ⟨a, ha, by simp [hak]⟩
    simp [hany] at hcond

theorem map_diffRow_names (l : List (Option Value × Option ℚ × Option ℚ)) :
    (l.map (fun m => DiffRow.mk m.1 (m.2.1.getD 0) (m.2.2.getD 0)
      (round4 (m.2.1.getD 0 - m.2.2.getD 0))
      (classifyStatus (m.2.1.getD 0) (m.2.2.getD 0)))).map
        (fun d => d.stockName) = l.map Prod.fst := by
  rw [List.map_map]
  rfl

/-- C3: on the no-previous-snapshot path the code marks every row New with
previous weight 0, but sets the weight delta to 0.0 — not to the stock's
total weight for today, as the spec states.  At the failing input (a single
holding, stock X with weight 5, no previous data) the diff row is
(X, total 5, prev 0, delta 0, New): the delta is 0, not 5. -/
theorem C3_code_eval :
    analyze_holdings sampleHoldings none =
      Except.ok ([ConsensusRow.mk (Value.str "X") 5 5 1 1],
                 [DiffRow.mk (some (Value.str "X")) 5 0 0 "New"]) :=
  sample_analyze_eval

/-- C8: analyze_holdings returns empty tables without raising when the
holdings list is empty (immediately, for any prior snapshot), when no
weight candidate matches and no valuation-amount column exists, and when
no name candidate matches. -/
theorem C8_unresolvable_returns_empty :
    (∀ prev, analyze_holdings [] prev = Except.ok ([], [])) ∧
    (∀ (hl : List RawTable) prev, hl ≠ [] →
       findCol weightCandidates (concatTables hl).cols = none →
       "평가금액" ∉ (concatTables hl).cols →
       analyze_holdings hl prev = Except.ok ([], [])) ∧
    (∀ (hl : List RawTable) prev, hl ≠ [] →
       findCol nameCandidates (concatTables hl).cols = none →
       analyze_holdings hl prev = Except.ok ([], [])) := by
  refine ⟨fun prev => rfl, ?_, ?_⟩
  · intro hl prev h hw ha
    exact analyze_holdings_noresolve prev h (by simp [resolveWeight, hw, ha])
  · intro hl prev h hn
    rcases hrw : resolveWeight (concatTables hl) with _ | ⟨tbl, wcol⟩
    · exact analyze_holdings_noresolve prev h hrw
    · have hcols : tbl.cols = (concatTables hl).cols ∨
          tbl.cols = (concatTables hl).cols ++ ["비중"] := by
        unfold resolveWeight at hrw
        rcases hfc : findCol weightCandidates (concatTables hl).cols with _ | w
        · rw [hfc] at hrw
          by_cases hm : "평가금액" ∈ (concatTables hl).cols
          · simp only [if_pos hm, Option.some.injEq, Prod.mk.injEq] at hrw
            right
            rw [← hrw.1]
            rfl
          · simp [if_neg hm] at hrw
        · rw [hfc] at hrw
          simp only [Option.some.injEq, Prod.mk.injEq] at hrw
          left
          rw [← hrw.1]
      have hnone : findCol nameCandidates tbl.cols = none := by
        rcases hcols with hc | hc
        · rw [hc]; exact hn
        · rw [hc]; exact findCol_append_none hn (by decide)
      exact analyze_holdings_noname prev h hrw hnone

/-- Witness for C8 at concrete inputs: the empty list, a table with no
weight and no valuation-amount column, and a table with a weight column
but no name column. -/
theorem C8_unresolvable_returns_empty_w :
    analyze_holdings ([] : List RawTable) none = Except.ok ([], []) ∧
    analyze_holdings [(⟨["foo"], [[("foo", Value.num 1)]]⟩ : RawTable)] none =
      Except.ok ([], []) ∧
    analyze_holdings [(⟨["비중"], [[("비중", Value.num 1)]]⟩ : RawTable)] none =
      Except.ok ([], []) :=
  ⟨C8_unresolvable_returns_empty.1 none,
   C8_unresolvable_returns_empty.2.1 _ none (by decide) (by decide) (by decide),
   C8_unresolvable_returns_empty.2.2 _ none (by decide) (by decide)⟩

/-- C9 (amended): an empty prior snapshot is treated identically to an
absent one, and the absent-prior path never raises.  (A non-empty but
malformed prior snapshot instead raises; see the counterexample.) -/
theorem C9_empty_prev_treated_as_absent :
    (∀ hl p, tableIsEmpty p = true →
       analyze_holdings hl (some p) = analyze_holdings hl none) ∧
    (∀ hl, ∃ res, analyze_holdings hl none = Except.ok res) := by
  constructor
  · intro hl p hp
    by_cases h : hl = []
    · subst h; rfl
    · rcases hrw : resolveWeight (concatTables hl) with _ | ⟨tbl, wcol⟩
      · rw [analyze_holdings_noresolve _ h hrw, analyze_holdings_noresolve _ h hrw]
      · rcases hn : findCol nameCandidates tbl.cols with _ | ncol
        · rw [analyze_holdings_noname _ h hrw hn,
              analyze_holdings_noname _ h hrw hn]
        · rw [analyze_holdings_some_empty_eq h hrw hn hp,
              analyze_holdings_none_eq h hrw hn]
  · intro hl
    by_cases h : hl = []
    · subst h; exact ⟨([], []), rfl⟩
    · rcases hrw : resolveWeight (concatTables hl) with _ | ⟨tbl, wcol⟩
      · exact ⟨([], []), analyze_holdings_noresolve _ h hrw⟩
      · rcases hn : findCol nameCandidates tbl.cols with _ | ncol
        · exact ⟨([], []), analyze_holdings_noname _ h hrw hn⟩
        · exact ⟨_, analyze_holdings_none_eq h hrw hn⟩

/-- Counterexample to C9 as stated: a non-empty prior snapshot lacking the
StockName/TotalWeight columns makes analyze_holdings raise (KeyError),
while the same holdings with an absent prior snapshot succeed — a
malformed non-empty prior is NOT treated identically to an absent one. -/
theorem C9_cex_malformed_prev_raises :
    analyze_holdings sampleHoldings (some badPrev) = Except.error () ∧
    analyze_holdings sampleHoldings none =
      Except.ok ([ConsensusRow.mk (Value.str "X") 5 5 1 1],
                 [DiffRow.mk (some (Value.str "X")) 5 0 0 "New"]) := by
  exact ⟨by with_unfolding_all rfl, sample_analyze_eval⟩

/-- Witness for C9 at a concrete empty prior snapshot. -/
theorem C9_empty_prev_treated_as_absent_w :
    analyze_holdings sampleHoldings
        (some (⟨["StockName", "TotalWeight"], []⟩ : RawTable)) =
      analyze_holdings sampleHoldings none :=
  C9_empty_prev_treated_as_absent.1 sampleHoldings _ rfl

/-- C10: on the no-previous-snapshot path every diff row has weight delta
0.0 and status New, and get_top_changes (which keeps only rows with delta
strictly greater than 0) therefore returns an empty table for every n. -/
theorem C10_no_prev_top_changes :
    ∀ (hl : List RawTable) (prev : Option RawTable) con diff n,
      (prev = none ∨ ∃ p, prev = some p ∧ tableIsEmpty p = true) →
      analyze_holdings hl prev = Except.ok (con, diff) →
      0 < n →
      (∀ d ∈ diff, d.weightDiff = 0 ∧ d.status = "New") ∧
      get_top_changes diff n = [] := by
  intro hl prev con diff n hprev hok hn
  have hcase : diff = [] ∨ diff = newPathDiff con := by
    by_cases h : hl = []
    · subst h
      have h0 : analyze_holdings [] prev = Except.ok ([], []) := rfl
      rw [h0] at hok
      simp only [Except.ok.injEq, Prod.mk.injEq] at hok
      exact Or.inl hok.2.symm
    · rcases hrw : resolveWeight (concatTables hl) with _ | ⟨tbl, wcol⟩
      · rw [analyze_holdings_noresolve _ h hrw] at hok
        simp only [Except.ok.injEq, Prod.mk.injEq] at hok
        exact Or.inl hok.2.symm
      · rcases hnc : findCol nameCandidates tbl.cols with _ | ncol
        · rw [analyze_holdings_noname _ h hrw hnc] at hok
          simp only [Except.ok.injEq, Prod.mk.injEq] at hok
          exact Or.inl hok.2.symm
        · rcases hprev with rfl | ⟨p, rfl, hp⟩
          · rw [analyze_holdings_none_eq h hrw hnc] at hok
            simp only [Except.ok.injEq, Prod.mk.injEq] at hok
            right
            rw [← hok.2, ← hok.1]
          · rw [analyze_holdings_some_empty_eq h hrw hnc hp] at hok
            simp only [Except.ok.injEq, Prod.mk.injEq] at hok
            right
            rw [← hok.2, ← hok.1]
  rcases hcase with rfl | rfl
  · exact ⟨by simp, by simp [get_top_changes]⟩
  · constructor
    · intro d hd
      rcases List.mem_map.mp hd with ⟨c, _, rfl⟩
      exact ⟨rfl, rfl⟩
    · unfold get_top_changes
      have hfil : (newPathDiff con).filter (fun d => decide (0 < d.weightDiff)) = [] := by
        rw [List.filter_eq_nil_iff]
        intro d hd
        rcases List.mem_map.mp hd with ⟨c, _, rfl⟩
        simp
      rw [hfil]
      exact List.take_nil

/-- Witness for C10 at the sample holdings, n = 1. -/
theorem C10_no_prev_top_changes_w :
    (∀ d ∈ [DiffRow.mk (some (Value.str "X")) 5 0 0 "New"],
       d.weightDiff = 0 ∧ d.status = "New") ∧
    get_top_changes [DiffRow.mk (some (Value.str "X")) 5 0 0 "New"] 1 = [] :=
  C10_no_prev_top_changes sampleHoldings none _ _ 1 (Or.inl rfl)
    sample_analyze_eval (by decide)

/-- C7: when no weight-column candidate matches but a valuation-amount
column exists, the weight used for each row is its amount divided by the
total amount, times 100, rounded to 4 decimals; for amounts [100, 300]
the derived weights are [25, 75]. -/
theorem C7_derived_weight_formula :
    (∀ hl : List RawTable, hl ≠ [] →
       findCol weightCandidates (concatTables hl).cols = none →
       "평가금액" ∈ (concatTables hl).cols →
       (∀ r ∈ (concatTables hl).rows, getVal r "비중" = none) →
       resolveWeight (concatTables hl) =
         some (deriveWeights (concatTables hl), "비중") ∧
       (deriveWeights (concatTables hl)).rows.map (fun r => getNum r "비중") =
         (concatTables hl).rows.map (fun r =>
           (getNum r "평가금액").map
             (fun a => round4 (a / totalValue (concatTables hl) * 100)))) ∧
    (deriveWeights (concatTables amountHoldings)).rows.map
        (fun r => getNum r "비중") = [some 25, some 75] := by
  constructor
  · intro hl _ hw hm hcl
    exact ⟨by simp [resolveWeight, hw, hm], deriveWeights_rows_weights hcl⟩
  · with_unfolding_all rfl

theorem skipWeekend_succ {n : ℕ} {z : ℤ} (h : 5 ≤ weekdayPy z) :
    skipWeekend (n + 1) z = skipWeekend n (z - 1) := by
  simp [skipWeekend, h]

theorem skipWeekend_stop {n : ℕ} {z : ℤ} (h : ¬ 5 ≤ weekdayPy z) :
    skipWeekend (n + 1) z = z := by
  simp [skipWeekend, h]

/-- C6: load_previous_data steps back one calendar day and then keeps
stepping back while on a weekend, reaching the closest earlier non-weekend
day (every strictly intermediate day is a weekend day); it then looks up
only that single date, so a missing file for that date yields the absent
result; and for the Monday "20240115" the computed predecessor key is the
Friday "20240112". -/
theorem C6_load_previous_weekend_skip :
    (prevDateStr "20240115" = some "20240112") ∧
    (∀ z : ℤ, weekdayPy (prevBusinessDay z) < 5 ∧ prevBusinessDay z < z ∧
       ∀ q : ℤ, prevBusinessDay z < q → q < z → 5 ≤ weekdayPy q) ∧
    (∀ (store : String → Option RawTable) (s : String) (z : ℤ),
       parseDate s = some z →
       load_previous_data store s =
         some (store (formatDate (prevBusinessDay z)))) ∧
    (∀ (store : String → Option RawTable) (s : String) (z : ℤ),
       parseDate s = some z →
       store (formatDate (prevBusinessDay z)) = none →
       load_previous_data store s = some none) := by
  have key : ∀ (store : String → Option RawTable) (s : String) (z : ℤ),
      parseDate s = some z →
      load_previous_data store s =
        some (store (formatDate (prevBusinessDay z))) := by
    intro store s z h
    simp [load_previous_data, prevDateStr, h]
  refine ⟨by with_unfolding_all rfl, ?_, key,
    fun store s z h hnone => by rw [key store s z h, hnone]⟩
  intro z
  by_cases h1 : 5 ≤ weekdayPy (z - 1)
  · by_cases h2 : 5 ≤ weekdayPy (z - 1 - 1)
    · have h3 : ¬ 5 ≤ weekdayPy (z - 1 - 1 - 1) := by
        simp only [weekdayPy] at h1 h2 ⊢
        omega
      have e : prevBusinessDay z = z - 1 - 1 - 1 := by
        unfold prevBusinessDay
        rw [skipWeekend_succ h1, skipWeekend_succ h2, skipWeekend_stop h3]
      rw [e]
      refine ⟨?_, by omega, ?_⟩
      · simp only [weekdayPy] at h1 h2 ⊢
        omega
      · intro q hq1 hq2
        have hq : q = z - 1 ∨ q = z - 1 - 1 := by omega
        rcases hq with rfl | rfl
        · exact h1
        · exact h2
    · have e : prevBusinessDay z = z - 1 - 1 := by
        unfold prevBusinessDay
        rw [skipWeekend_succ h1, skipWeekend_stop h2]
      rw [e]
      refine ⟨?_, by omega, ?_⟩
      · simp only [weekdayPy] at h2 ⊢
        omega
      · intro q hq1 hq2
        have hq : q = z - 1 := by omega
        rw [hq]
        exact h1
  · have e : prevBusinessDay z = z - 1 := by
      unfold prevBusinessDay
      rw [skipWeekend_stop h1]
    rw [e]
    refine ⟨?_, by omega, ?_⟩
    · simp only [weekdayPy] at h1 ⊢
      omega
    · intro q hq1 hq2
      omega

/-- Witness for C6: loading from an empty store at the Monday date
resolves the single Friday key and reports the snapshot as absent. -/
theorem C6_load_previous_weekend_skip_w :
    load_previous_data (fun _ => none) "20240115" = some none :=
  C6_load_previous_weekend_skip.2.2.1 (fun _ => none) "20240115"
    (daysFromCivil 2024 1 15) (by with_unfolding_all rfl)

/-- Witness for C7 at the concrete amounts [100, 300]. -/
theorem C7_derived_weight_formula_w :
    resolveWeight (concatTables amountHoldings) =
      some (deriveWeights (concatTables amountHoldings), "비중") ∧
    (deriveWeights (concatTables amountHoldings)).rows.map
        (fun r => getNum r "비중") =
      (concatTables amountHoldings).rows.map (fun r =>
        (getNum r "평가금액").map
          (fun a => round4 (a / totalValue (concatTables amountHoldings) * 100))) :=
  C7_derived_weight_formula.1 amountHoldings (by decide) (by decide)
    (by decide) (by decide)

theorem todayPairs_keys_eq (con : List ConsensusRow) :
    ((con.map (fun c =>
        ((some c.stockName : Option Value),
         (some c.totalWeight : Option ℚ)))).map Prod.fst)
      = (con.map (fun c => c.stockName)).map some := by
  rw [List.map_map, List.map_map]
  rfl

/-- Counterexample to C2 as stated: stock B is present only in the today
table (with total weight 0) and absent from the prior snapshot, yet its
status is Maintain, not New — the New/Out classification tests
positivity of the filled weights, not membership. -/
theorem C2_cex_zero_weight_today_only_not_new :
    calculate_diff zeroTodayCon prevA1 =
      Except.ok [DiffRow.mk (some (Value.str "A")) 2 1 1 "Maintain",
                 DiffRow.mk (some (Value.str "B")) 0 0 0 "Maintain"] := by
  with_unfolding_all rfl

/-- C2 (amended): for consensus tables whose weights are all positive, the
diff table contains exactly the union of the stock names (each once), a
stock present only today is New with previous weight 0, a stock present
only in the prior snapshot is Out with today weight 0, a stock present in
both is Maintain, no stock is both New and Out, and the rows are ordered
by weight delta descending.  (Without positivity the statuses follow the
filled-weight rule instead; see the counterexample.) -/
theorem C2_outer_join_statuses :
    ∀ (today : List ConsensusRow) (prev : RawTable)
      (pp : List (Option Value × Option ℚ)) (diff : List DiffRow),
      today ≠ [] → pp ≠ [] →
      (today.map (fun c => c.stockName)).Nodup →
      (pp.map Prod.fst).Nodup →
      selectPrev prev = Except.ok pp →
      (∀ x ∈ pp, ∃ v : Value, ∃ q : ℚ, x = (some v, some q)) →
      (∀ c ∈ today, 0 < c.totalWeight) →
      (∀ x ∈ pp, ∀ q : ℚ, x.2 = some q → 0 < q) →
      calculate_diff today prev = Except.ok diff →
      ((diff.map (fun d => d.stockName)).Nodup ∧
       (∀ v : Value, some v ∈ diff.map (fun d => d.stockName) ↔
          (v ∈ today.map (fun c => c.stockName) ∨ some v ∈ pp.map Prod.fst))) ∧
      (∀ d ∈ diff, ∀ v : Value, d.stockName = some v →
        ((v ∈ today.map (fun c => c.stockName) → some v ∉ pp.map Prod.fst →
            d.status = "New" ∧ d.prevWeight = 0) ∧
         (v ∉ today.map (fun c => c.stockName) → some v ∈ pp.map Prod.fst →
            d.status = "Out" ∧ d.totalWeight = 0) ∧
         (v ∈ today.map (fun c => c.stockName) → some v ∈ pp.map Prod.fst →
            d.status = "Maintain"))) ∧
      (∀ d1 ∈ diff, ∀ d2 ∈ diff, d1.stockName = d2.stockName →
        d1.status = "New" → d2.status ≠ "Out") ∧
      List.Sorted diffGE diff := by
  intro today prev pp diff _ _ hnd hnp hsel hwf hpos hq hdiff
  have hndk := todayPairs_keys_nodup hnd
  rw [calculate_diff_eq hsel] at hdiff
  obtain rfl := (Except.ok.inj hdiff).symm
  have hperm : (List.insertionSort diffGE ((mergeOuter (today.map (fun c =>
      ((some c.stockName : Option Value),
       (some c.totalWeight : Option ℚ)))) pp).map
        (fun m => DiffRow.mk m.1 (m.2.1.getD 0) (m.2.2.getD 0)
          (round4 (m.2.1.getD 0 - m.2.2.getD 0))
          (classifyStatus (m.2.1.getD 0) (m.2.2.getD 0))))).map
            (fun d => d.stockName) |>.Perm
          ((mergeOuter (today.map (fun c =>
            ((some c.stockName : Option Value),
             (some c.totalWeight : Option ℚ)))) pp).map Prod.fst) := by
    rw [← map_diffRow_names]
    exact (List.perm_insertionSort diffGE _).map _
  have hnodup : ((List.insertionSort diffGE ((mergeOuter (today.map (fun c =>
      ((some c.stockName : Option Value),
       (some c.totalWeight : Option ℚ)))) pp).map
        (fun m => DiffRow.mk m.1 (m.2.1.getD 0) (m.2.2.getD 0)
          (round4 (m.2.1.getD 0 - m.2.2.getD 0))
          (classifyStatus (m.2.1.getD 0) (m.2.2.getD 0))))).map
            (fun d => d.stockName)).Nodup := by
    rw [hperm.nodup_iff]
    exact keys_mergeOuter_nodup hndk hnp
  refine ⟨⟨hnodup, ?_⟩, ?_, ?_, List.sorted_insertionSort diffGE _⟩
  · intro v
    rw [hperm.mem_iff, mem_keys_mergeOuter hnp, todayPairs_keys_eq]
    simp
  · intro d hd v hv
    rw [List.mem_insertionSort] at hd
    rcases List.mem_map.mp hd with ⟨m, hm, rfl⟩
    rcases mem_mergeOuter_part hnp hm with ⟨a, ha, rfl⟩ | ⟨b, hb, rfl, hnotin⟩
    · rcases List.mem_map.mp ha with ⟨c, hc, rfl⟩
      have hcv : c.stockName = v := by simpa using hv
      refine ⟨?_, ?_, ?_⟩
      · intro _ hnotpp
        have hfind : pp.find? (fun b =>
            decide (b.1 = (some c.stockName : Option Value))) = none := by
          rw [List.find?_eq_none]
          intro x hx
          simp only [decide_eq_true_eq]
          intro hxk
          exact hnotpp (hcv ▸ hxk ▸ List.mem_map_of_mem Prod.fst hx)
        constructor
        · simp [hfind, classifyStatus, hpos c hc]
        · simp [hfind]
      · intro hnot _
        exact absurd (hcv ▸ List.mem_map_of_mem (fun c => c.stockName) hc) hnot
      · intro _ hin
        have hex : ∃ x ∈ pp, x.1 = (some c.stockName : Option Value) := by
          rw [hcv]
          simpa using hin
        rcases hex with ⟨x, hx, hxk⟩
        have hfind : pp.find? (fun b =>
            decide (b.1 = (some c.stockName : Option Value))) = some x := by
          have h0 := find_key_self hnp hx
          rw [hxk] at h0
          exact h0
        rcases hwf x hx with ⟨v0, q, rfl⟩
        have hq0 : 0 < q := hq _ hx q rfl
        simp [hfind, classifyStatus, ne_of_gt hq0, ne_of_gt (hpos c hc)]
    · rcases hwf b hb with ⟨v0, q, rfl⟩
      have hq0 : 0 < q := hq _ hb q rfl
      have hv0 : v0 = v := by simpa using hv
      subst hv0
      refine ⟨?_, ?_, ?_⟩
      · intro _ hnotpp
        exact absurd (List.mem_map_of_mem Prod.fst hb) hnotpp
      · intro _ _
        constructor
        · simp [classifyStatus, hq0, ne_of_gt hq0]
        · rfl
      · intro hin _
        exact absurd (by
          rw [todayPairs_keys_eq]
          exact List.mem_map_of_mem some hin) hnotin
  · intro d1 h1 d2 h2 hname hnew
    have heq : d1 = d2 := by
      exact List.inj_on_of_nodup_map hnodup h1 h2 hname
    rw [← heq, hnew]
    simp

/-- Witness for C2 at today = [A 2] and prior snapshot [B 1]. -/
theorem C2_outer_join_statuses_w :
    ((pairDiff.map (fun d => d.stockName)).Nodup ∧
     (∀ v : Value, some v ∈ pairDiff.map (fun d => d.stockName) ↔
        (v ∈ todayConA.map (fun c => c.stockName) ∨
         some v ∈ pairPP.map Prod.fst))) ∧
    (∀ d ∈ pairDiff, ∀ v : Value, d.stockName = some v →
      ((v ∈ todayConA.map (fun c => c.stockName) →
          some v ∉ pairPP.map Prod.fst →
          d.status = "New" ∧ d.prevWeight = 0) ∧
       (v ∉ todayConA.map (fun c => c.stockName) →
          some v ∈ pairPP.map Prod.fst →
          d.status = "Out" ∧ d.totalWeight = 0) ∧
       (v ∈ todayConA.map (fun c => c.stockName) →
          some v ∈ pairPP.map Prod.fst →
          d.status = "Maintain"))) ∧
    (∀ d1 ∈ pairDiff, ∀ d2 ∈ pairDiff, d1.stockName = d2.stockName →
      d1.status = "New" → d2.status ≠ "Out") ∧
    List.Sorted diffGE pairDiff :=
  C2_outer_join_statuses todayConA prevB1 pairPP pairDiff
    (by simp [todayConA]) (by simp [pairPP]) (by simp [todayConA])
    (by simp [pairPP]) (by with_unfolding_all rfl)
    (by intro x hx; simp [pairPP] at hx; exact ⟨Value.str "B", 1, hx⟩)
    (by with_unfolding_all decide) (by with_unfolding_all decide)
    (by with_unfolding_all rfl)

/-- C5: diffing a consensus table against its own saved snapshot yields a
diff table in which every row is Maintain with weight delta exactly 0. -/
theorem C5_self_diff_all_maintain :
    ∀ (con : List ConsensusRow) (diff : List DiffRow),
      con ≠ [] →
      (con.map (fun c => c.stockName)).Nodup →
      calculate_diff con (toSnapshot con) = Except.ok diff →
      ∀ d ∈ diff, d.status = "Maintain" ∧ d.weightDiff = 0 := by
  intro con diff _ hnd hdiff
  have hndk := todayPairs_keys_nodup hnd
  rw [calculate_diff_eq (selectPrev_toSnapshot con)] at hdiff
  obtain rfl := (Except.ok.inj hdiff).symm
  intro d hd
  rw [List.mem_insertionSort] at hd
  rw [mergeOuter_eq_of_nodup hndk] at hd
  have hpart2 : (con.map (fun c =>
      ((some c.stockName : Option Value),
       (some c.totalWeight : Option ℚ)))).filter
        (fun b => !((con.map (fun c =>
          ((some c.stockName : Option Value),
           (some c.totalWeight : Option ℚ)))).any
            (fun a => decide (a.1 = b.1)))) = [] := by
    rw [List.filter_eq_nil_iff]
    intro b hb
    have hany : (con.map (fun c =>
        ((some c.stockName : Option Value),
         (some c.totalWeight : Option ℚ)))).any
          (fun a => decide (a.1 = b.1)) = true :=
      List.any_eq_true.mpr ⟨b, hb, by simp⟩
    simp [hany]
  rw [hpart2] at hd
  simp only [List.map_nil, List.append_nil] at hd
  rcases List.mem_map.mp hd with ⟨m, hm, rfl⟩
  rcases List.mem_map.mp hm with ⟨a, ha, rfl⟩
  rw [find_key_self hndk ha]
  constructor
  · exact classifyStatus_self _
  · simp [sub_self, round4_zero]

theorem sum_map_add {α : Type} (f g : α → ℚ) :
    ∀ l : List α,
      (l.map (fun a => f a + g a)).sum = (l.map f).sum + (l.map g).sum
  | [] => by simp
  | a :: t => by
    simp only [List.map_cons, List.sum_cons, sum_map_add f g t]
    ring

theorem sum_map_single {κ : Type} [DecidableEq κ] (k0 : κ) (x : ℚ) :
    ∀ K : List κ, K.Nodup → k0 ∈ K →
      (K.map (fun k => if k = k0 then x else 0)).sum = x
  | [], _, h => absurd h (List.not_mem_nil k0)
  | k :: K, hnd, hmem => by
    rw [List.map_cons, List.sum_cons]
    rcases List.mem_cons.mp hmem with rfl | hk
    · rw [if_pos rfl]
      have hz : (K.map (fun j => if j = k0 then x else 0))
          = K.map (fun _ => (0 : ℚ)) := by
        apply List.map_congr_left
        intro j hj
        rw [if_neg]
        intro hjk
        exact (List.nodup_cons.mp hnd).1 (hjk ▸ hj)
      rw [hz]
      simp
    · rw [if_neg, sum_map_single k0 x K (List.nodup_cons.mp hnd).2 hk,
          zero_add]
      intro hkk
      exact (List.nodup_cons.mp hnd).1 (hkk ▸ hk)

theorem sum_partition {α κ : Type} [DecidableEq κ] (key : α → Option κ)
    (w : α → ℚ) (K : List κ) (hnd : K.Nodup) :
    ∀ rows : List α, (∀ r ∈ rows, ∃ k ∈ K, key r = some k) →
      (K.map (fun k =>
        ((rows.filter (fun r => decide (key r = some k))).map w).sum)).sum
        = (rows.map w).sum
  | [], _ => by simp
  | r :: t, hcov => by
    rcases hcov r (List.mem_cons_self r t) with ⟨k0, hk0, hkey⟩
    have hstep : ∀ k ∈ K,
        (((r :: t).filter (fun x => decide (key x = some k))).map w).sum
          = (if k = k0 then w r else 0)
            + ((t.filter (fun x => decide (key x = some k))).map w).sum := by
      intro k hk
      rw [List.filter_cons]
      by_cases hkk : k = k0
      · subst hkk
        rw [if_pos (by simp [hkey]), if_pos rfl, List.map_cons, List.sum_cons]
      · rw [if_neg, if_neg hkk, zero_add]
        simp only [hkey, decide_eq_true_eq, Option.some.injEq]
        intro h
        exact hkk h.symm
    rw [List.map_congr_left hstep, sum_map_add, sum_map_single k0 (w r) K hnd hk0,
        sum_partition key w K hnd t (fun x hx => hcov x (List.mem_cons_of_mem r hx)),
        List.map_cons, List.sum_cons]

theorem filterMap_eq_map_getD {α β : Type} (f : α → Option β) (d : β) :
    ∀ l : List α, (∀ a ∈ l, (f a).isSome) →
      l.filterMap f = l.map (fun a => (f a).getD d)
  | [], _ => rfl
  | a :: t, h => by
    rcases ha : f a with _ | b
    · exact absurd (h a (List.mem_cons_self a t)) (by simp [ha])
    · rw [List.filterMap_cons_some ha, List.map_cons,
          filterMap_eq_map_getD f d t (fun x hx => h x (List.mem_cons_of_mem a hx)),
          ha]
      rfl

theorem pairwise_orderedInsert {α : Type} (r : α → α → Prop) [DecidableRel r]
    (P : α → α → Prop) (a : α) :
    ∀ l : List α, l.Pairwise P → (∀ b ∈ l, P a b) →
      (∀ b ∈ l, ¬ r a b → P b a) → (List.orderedInsert r a l).Pairwise P
  | [], _, _, _ => by simp
  | b :: t, h1, h2, h3 => by
    rw [List.orderedInsert]
    rcases List.pairwise_cons.mp h1 with ⟨hhead, htail⟩
    by_cases hr : r a b
    · rw [if_pos hr]
      exact List.Pairwise.cons h2 h1
    · rw [if_neg hr]
      refine List.Pairwise.cons ?_
        (pairwise_orderedInsert r P a t htail
          (fun c hc => h2 c (List.mem_cons_of_mem b hc))
          (fun c hc hnr => h3 c (List.mem_cons_of_mem b hc) hnr))
      intro c hc
      rcases (List.mem_orderedInsert r).mp hc with rfl | hct
      · exact h3 b (List.mem_cons_self b t) hr
      · exact hhead c hct

theorem pairwise_insertionSort {α : Type} (r : α → α → Prop) [DecidableRel r]
    (P : α → α → Prop) (hP : ∀ a b, ¬ r a b → P b a) :
    ∀ l : List α, l.Pairwise P → (List.insertionSort r l).Pairwise P
  | [], _ => by simp
  | a :: t, h => by
    rw [List.insertionSort]
    rcases List.pairwise_cons.mp h with ⟨hhead, htail⟩
    exact pairwise_orderedInsert r P a _
      (pairwise_insertionSort r P hP t htail)
      (fun b hb => hhead b ((List.mem_insertionSort r).mp hb))
      (fun b _ hnr => hP a b hnr)

theorem assignRanks_map_core {α : Type} (f : ConsensusRow → α)
    (hf : ∀ (c : ConsensusRow) (i : ℕ), f { c with rank := i } = f c) :
    ∀ (i : ℕ) (l : List ConsensusRow), (assignRanks i l).map f = l.map f
  | _, [] => rfl
  | i, c :: t => by
    simp only [assignRanks, List.map_cons, hf,
      assignRanks_map_core f hf (i + 1) t]

theorem assignRanks_map_rank :
    ∀ (i : ℕ) (l : List ConsensusRow),
      (assignRanks i l).map (fun c => c.rank) = List.range' i l.length
  | _, [] => rfl
  | i, c :: t => by
    simp only [assignRanks, List.map_cons, List.length_cons, List.range'_succ,
      assignRanks_map_rank (i + 1) t]

theorem assignRanks_length :
    ∀ (i : ℕ) (l : List ConsensusRow), (assignRanks i l).length = l.length
  | _, [] => rfl
  | i, c :: t => by
    simp only [assignRanks, List.length_cons, assignRanks_length (i + 1) t]

theorem mem_assignRanks :
    ∀ {c : ConsensusRow} (i : ℕ) (l : List ConsensusRow),
      c ∈ assignRanks i l → ∃ c0 ∈ l, c = { c0 with rank := c.rank }
  | c, _, [], h => absurd h (List.not_mem_nil c)
  | c, i, p :: t, h => by
    rcases List.mem_cons.mp h with rfl | ht
    · exact ⟨p, List.mem_cons_self p t, rfl⟩
    · rcases mem_assignRanks (i + 1) t ht with ⟨c0, hc0, he⟩
      exact ⟨c0, List.mem_cons_of_mem p hc0, he⟩

theorem rank_ge_of_mem_assignRanks :
    ∀ {c : ConsensusRow} (i : ℕ) (l : List ConsensusRow),
      c ∈ assignRanks i l → i ≤ c.rank
  | c, _, [], h => absurd h (List.not_mem_nil c)
  | c, i, p :: t, h => by
    rcases List.mem_cons.mp h with rfl | ht
    · simp
    · exact le_trans (Nat.le_succ i) (rank_ge_of_mem_assignRanks (i + 1) t ht)

theorem eq_head_of_rank_eq :
    ∀ {c : ConsensusRow} (i : ℕ) (l : List ConsensusRow),
      c ∈ assignRanks i l → c.rank = i →
      ∃ c0 t, l = c0 :: t ∧ c = { c0 with rank := i }
  | c, _, [], h, _ => absurd h (List.not_mem_nil c)
  | c, i, p :: t, h, hrk => by
    rcases List.mem_cons.mp h with rfl | ht
    · exact ⟨p, t, rfl, rfl⟩
    · have hge := rank_ge_of_mem_assignRanks (i + 1) t ht
      exact absurd hrk (by omega)

theorem assignRanks_pairwise {R : ConsensusRow → ConsensusRow → Prop}
    (hR : ∀ a b i j, R a b → R { a with rank := i } { b with rank := j }) :
    ∀ (i : ℕ) (l : List ConsensusRow),
      l.Pairwise R → (assignRanks i l).Pairwise R
  | _, [], _ => List.Pairwise.nil
  | i, p :: t, h => by
    rcases List.pairwise_cons.mp h with ⟨hhead, htail⟩
    refine List.Pairwise.cons ?_ (assignRanks_pairwise hR (i + 1) t htail)
    intro c hc
    rcases mem_assignRanks (i + 1) t hc with ⟨c0, hc0, he⟩
    rw [he]
    exact hR p c0 i c.rank (hhead c0 hc0)

theorem buildConsensus_names_perm (rows : List Row) (ncol wcol : String) :
    ((buildConsensus rows ncol wcol).map (fun c => c.stockName)).Perm
      ((rows.filterMap (fun r => getVal r ncol)).dedup) := by
  unfold buildConsensus
  rw [assignRanks_map_core (fun c => c.stockName) (fun _ _ => rfl)]
  have h1 := (List.perm_insertionSort conGE
    ((List.insertionSort valueLE
      ((rows.filterMap (fun r => getVal r ncol)).dedup)).map
        (mkConsensusEntry rows ncol wcol))).map (fun c => c.stockName)
  have h2 : ((List.insertionSort valueLE
      ((rows.filterMap (fun r => getVal r ncol)).dedup)).map
        (mkConsensusEntry rows ncol wcol)).map (fun c => c.stockName)
      = List.insertionSort valueLE
          ((rows.filterMap (fun r => getVal r ncol)).dedup) := by
    rw [List.map_map]
    exact List.map_id _
  rw [h2] at h1
  exact h1.trans (List.perm_insertionSort valueLE _)

theorem mem_buildConsensus (rows : List Row) (ncol wcol : String)
    {c : ConsensusRow} (hc : c ∈ buildConsensus rows ncol wcol) :
    ∃ k, k ∈ (rows.filterMap (fun r => getVal r ncol)).dedup ∧
      c.stockName = k ∧
      c.totalWeight = (groupWeights rows ncol wcol k).sum ∧
      c.avgWeight = (groupWeights rows ncol wcol k).sum /
        ((groupWeights rows ncol wcol k).length : ℚ) ∧
      c.etfCount = (groupWeights rows ncol wcol k).length := by
  unfold buildConsensus at hc
  rcases mem_assignRanks _ _ hc with ⟨c0, hc0, he⟩
  rw [List.mem_insertionSort] at hc0
  rcases List.mem_map.mp hc0 with ⟨k, hk, rfl⟩
  rw [List.mem_insertionSort] at hk
  refine ⟨k, hk, ?_, ?_, ?_, ?_⟩ <;> rw [he] <;> rfl

theorem buildConsensus_rank_map (rows : List Row) (ncol wcol : String) :
    (buildConsensus rows ncol wcol).map (fun c => c.rank)
      = List.range' 1 (buildConsensus rows ncol wcol).length := by
  unfold buildConsensus
  rw [assignRanks_map_rank, assignRanks_length]

theorem buildConsensus_sorted (rows : List Row) (ncol wcol : String) :
    List.Sorted conGE (buildConsensus rows ncol wcol) := by
  unfold buildConsensus
  exact assignRanks_pairwise (fun a b _ _ h => h) 1 _
    (List.sorted_insertionSort conGE _)

theorem buildConsensus_rank_one_max (rows : List Row) (ncol wcol : String)
    {c : ConsensusRow} (hc : c ∈ buildConsensus rows ncol wcol)
    (h1 : c.rank = 1) :
    ∀ c2 ∈ buildConsensus rows ncol wcol, c2.totalWeight ≤ c.totalWeight := by
  unfold buildConsensus at hc ⊢
  rcases eq_head_of_rank_eq 1 _ hc h1 with ⟨c0, t, hl, hce⟩
  intro c2 hc2
  rcases mem_assignRanks 1 _ hc2 with ⟨c02, hc02, he2⟩
  rw [hce, he2]
  show c02.totalWeight ≤ c0.totalWeight
  rw [hl] at hc02
  rcases List.mem_cons.mp hc02 with rfl | hmem
  · exact le_refl _
  · have hs := List.sorted_insertionSort conGE
      ((List.insertionSort valueLE
        ((rows.filterMap (fun r => getVal r ncol)).dedup)).map
          (mkConsensusEntry rows ncol wcol))
    rw [hl] at hs
    exact List.rel_of_sorted_cons hs c02 hmem

theorem buildConsensus_tie_pairwise (rows : List Row) (ncol wcol : String) :
    (buildConsensus rows ncol wcol).Pairwise (fun a b =>
      a.totalWeight = b.totalWeight → valueLE a.stockName b.stockName) := by
  unfold buildConsensus
  apply assignRanks_pairwise (fun a b _ _ h => h)
  apply pairwise_insertionSort
  · intro a b hnr htw
    exact absurd (le_of_eq htw) hnr
  · have hp : List.Pairwise
        (fun a b : ConsensusRow => valueLE a.stockName b.stockName)
        ((List.insertionSort valueLE
          ((rows.filterMap (fun r => getVal r ncol)).dedup)).map
            (mkConsensusEntry rows ncol wcol)) :=
      List.Pairwise.map _ (fun _ _ h => h) (List.sorted_insertionSort valueLE _)
    refine hp.imp ?_
    intro a b h _
    exact h

theorem analyze_ok_con {hl : List RawTable} {tbl : RawTable}
    {wcol ncol : String} {prev : Option RawTable} {con : List ConsensusRow}
    {diff : List DiffRow} (h : hl ≠ [])
    (hw : resolveWeight (concatTables hl) = some (tbl, wcol))
    (hn : findCol nameCandidates tbl.cols = some ncol)
    (hok : analyze_holdings hl prev = Except.ok (con, diff)) :
    con = buildConsensus tbl.rows ncol wcol := by
  cases prev with
  | none =>
    rw [analyze_holdings_none_eq h hw hn] at hok
    simp only [Except.ok.injEq, Prod.mk.injEq] at hok
    exact hok.1.symm
  | some p =>
    by_cases hp : tableIsEmpty p = true
    · rw [analyze_holdings_some_empty_eq h hw hn hp] at hok
      simp only [Except.ok.injEq, Prod.mk.injEq] at hok
      exact hok.1.symm
    · rw [analyze_holdings_some_eq h hw hn (by simpa using hp)] at hok
      rcases hd : calculate_diff (buildConsensus tbl.rows ncol wcol) p with e | d
      · rw [hd] at hok
        exact absurd hok (by simp [Except.map])
      · rw [hd] at hok
        simp only [Except.map, Except.ok.injEq, Prod.mk.injEq] at hok
        exact hok.1.symm

/-- Witness for C5 at the two-stock table (A 7, B 3). -/
theorem C5_self_diff_all_maintain_w :
    (DiffRow.mk (some (Value.str "A")) 7 7 0 "Maintain").status = "Maintain" ∧
    (DiffRow.mk (some (Value.str "A")) 7 7 0 "Maintain").weightDiff = 0 :=
  C5_self_diff_all_maintain selfCon
    [DiffRow.mk (some (Value.str "A")) 7 7 0 "Maintain",
     DiffRow.mk (some (Value.str "B")) 3 3 0 "Maintain"]
    (by simp [selfCon]) (by with_unfolding_all decide)
    (by with_unfolding_all rfl)
    (DiffRow.mk (some (Value.str "A")) 7 7 0 "Maintain")
    (List.mem_cons_self _ _)

/-- C1: the consensus table has exactly one row per distinct stock name;
each row's total weight is the sum of the weights of the rows with that
name, its ETF count is the number of such rows, and its average weight is
total / count; consequently the total weights sum to the sum of all input
row weights (exactly, in the rational model — hence within any rounding
tolerance). -/
theorem C1_consensus_aggregation :
    ∀ (hl : List RawTable) (prev : Option RawTable) (tbl : RawTable)
      (wcol ncol : String) (con : List ConsensusRow) (diff : List DiffRow),
      hl ≠ [] →
      resolveWeight (concatTables hl) = some (tbl, wcol) →
      findCol nameCandidates tbl.cols = some ncol →
      (∀ r ∈ tbl.rows, (getVal r ncol).isSome ∧ (getNum r wcol).isSome) →
      analyze_holdings hl prev = Except.ok (con, diff) →
      ((con.map (fun c => c.stockName)).Nodup ∧
       (∀ v : Value, v ∈ con.map (fun c => c.stockName) ↔
          some v ∈ tbl.rows.map (fun r => getVal r ncol))) ∧
      (∀ c ∈ con,
        c.totalWeight = ((tbl.rows.filter (fun r =>
            decide (getVal r ncol = some c.stockName))).map
              (fun r => (getNum r wcol).getD 0)).sum ∧
        c.etfCount = (tbl.rows.filter (fun r =>
            decide (getVal r ncol = some c.stockName))).length ∧
        c.avgWeight = c.totalWeight / ((tbl.rows.filter (fun r =>
            decide (getVal r ncol = some c.stockName))).length : ℚ)) ∧
      (con.map (fun c => c.totalWeight)).sum =
        (tbl.rows.map (fun r => (getNum r wcol).getD 0)).sum := by
  intro hl prev tbl wcol ncol con diff hne hw hn hwf hok
  obtain rfl := analyze_ok_con hne hw hn hok
  have hgw : ∀ k : Value, groupWeights tbl.rows ncol wcol k =
      (tbl.rows.filter (fun r => decide (getVal r ncol = some k))).map
        (fun r => (getNum r wcol).getD 0) := by
    intro k
    unfold groupWeights
    apply filterMap_eq_map_getD
    intro r hr
    exact (hwf r (List.mem_filter.mp hr).1).2
  refine ⟨⟨?_, ?_⟩, ?_, ?_⟩
  · rw [(buildConsensus_names_perm tbl.rows ncol wcol).nodup_iff]
    exact List.nodup_dedup _
  · intro v
    rw [(buildConsensus_names_perm tbl.rows ncol wcol).mem_iff,
        List.mem_dedup, List.mem_filterMap]
    simp
  · intro c hc
    rcases mem_buildConsensus tbl.rows ncol wcol hc with
      ⟨k, _, hsn, htw, hav, hcnt⟩
    subst hsn
    refine ⟨?_, ?_, ?_⟩
    · rw [htw, hgw]
    · rw [hcnt, hgw, List.length_map]
    · rw [hav, htw, hgw, List.length_map]
  · unfold buildConsensus
    rw [assignRanks_map_core (fun c => c.totalWeight) (fun _ _ => rfl),
        ((List.perm_insertionSort conGE _).map
          (fun c => c.totalWeight)).sum_eq,
        List.map_map]
    have hcomp : ((fun c : ConsensusRow => c.totalWeight) ∘
        mkConsensusEntry tbl.rows ncol wcol)
        = fun k => (groupWeights tbl.rows ncol wcol k).sum := rfl
    rw [hcomp, List.map_congr_left (fun k _ => by rw [hgw k])]
    apply sum_partition
    · rw [(List.perm_insertionSort valueLE _).nodup_iff]
      exact List.nodup_dedup _
    · intro r hr
      rcases Option.isSome_iff_exists.mp (hwf r hr).1 with ⟨v, hv⟩
      refine ⟨v, ?_, hv⟩
      rw [List.mem_insertionSort, List.mem_dedup, List.mem_filterMap]
      exact ⟨r, hr, hv⟩

/-- Witness for C1 at the two-ETF scenario (X 5 and Y 3 in one table,
X 2 in the other): X totals 7 over 2 ETFs, Y totals 3 over 1. -/
theorem C1_consensus_aggregation_w :
    ((twoCon.map (fun c => c.stockName)).Nodup ∧
     (∀ v : Value, v ∈ twoCon.map (fun c => c.stockName) ↔
        some v ∈ (concatTables twoTables).rows.map
          (fun r => getVal r "종목명"))) ∧
    (∀ c ∈ twoCon,
      c.totalWeight = (((concatTables twoTables).rows.filter (fun r =>
          decide (getVal r "종목명" = some c.stockName))).map
            (fun r => (getNum r "비중").getD 0)).sum ∧
      c.etfCount = ((concatTables twoTables).rows.filter (fun r =>
          decide (getVal r "종목명" = some c.stockName))).length ∧
      c.avgWeight = c.totalWeight / (((concatTables twoTables).rows.filter
          (fun r => decide (getVal r "종목명" = some c.stockName))).length : ℚ)) ∧
    (twoCon.map (fun c => c.totalWeight)).sum =
      ((concatTables twoTables).rows.map
        (fun r => (getNum r "비중").getD 0)).sum :=
  C1_consensus_aggregation twoTables none (concatTables twoTables) "비중"
    "종목명" twoCon (newPathDiff twoCon) (by simp [twoTables]) rfl rfl
    (by decide) (by with_unfolding_all rfl)

/-- Counterexample to C4 as stated: the input lists stock B first, then
stock A, with equal weights 5.  First-occurrence order would give B rank 1;
the code's grouping sorts the group keys by name, so A gets rank 1. -/
theorem C4_cex_tie_rank_not_first_occurrence :
    analyze_holdings tieHoldings none =
      Except.ok ([ConsensusRow.mk (Value.str "A") 5 5 1 1,
                  ConsensusRow.mk (Value.str "B") 5 5 1 2],
                 [DiffRow.mk (some (Value.str "A")) 5 0 0 "New",
                  DiffRow.mk (some (Value.str "B")) 5 0 0 "New"]) := by
  with_unfolding_all rfl

/-- C4 (amended): the Rank column of the consensus table is the contiguous
sequence 1..N assigned along the list, the list is ordered by total weight
descending, rank 1 belongs to a row of maximum total weight, and among
rows with exactly equal total weight rank order follows ascending stock
name (the sorted group-key order) — not first-occurrence order in the
combined input (see the counterexample). -/
theorem C4_rank_contiguous_desc :
    ∀ (hl : List RawTable) (prev : Option RawTable)
      (con : List ConsensusRow) (diff : List DiffRow),
      analyze_holdings hl prev = Except.ok (con, diff) →
      con.map (fun c => c.rank) = List.range' 1 con.length ∧
      List.Sorted conGE con ∧
      (∀ c ∈ con, c.rank = 1 →
        ∀ c2 ∈ con, c2.totalWeight ≤ c.totalWeight) ∧
      con.Pairwise (fun a b => a.totalWeight = b.totalWeight →
        valueLE a.stockName b.stockName) := by
  intro hl prev con diff hok
  have hcase : con = [] ∨ ∃ (tbl : RawTable) (wcol ncol : String),
      con = buildConsensus tbl.rows ncol wcol := by
    by_cases h : hl = []
    · subst h
      have h0 : analyze_holdings [] prev = Except.ok ([], []) := rfl
      rw [h0] at hok
      simp only [Except.ok.injEq, Prod.mk.injEq] at hok
      exact Or.inl hok.1.symm
    · rcases hrw : resolveWeight (concatTables hl) with _ | ⟨tbl, wcol⟩
      · rw [analyze_holdings_noresolve _ h hrw] at hok
        simp only [Except.ok.injEq, Prod.mk.injEq] at hok
        exact Or.inl hok.1.symm
      · rcases hnc : findCol nameCandidates tbl.cols with _ | ncol
        · rw [analyze_holdings_noname _ h hrw hnc] at hok
          simp only [Except.ok.injEq, Prod.mk.injEq] at hok
          exact Or.inl hok.1.symm
        · exact Or.inr ⟨tbl, wcol, ncol, analyze_ok_con h hrw hnc hok⟩
  rcases hcase with rfl | ⟨tbl, wcol, ncol, rfl⟩
  · exact ⟨rfl, List.sorted_nil, by simp, List.Pairwise.nil⟩
  · exact ⟨buildConsensus_rank_map _ _ _, buildConsensus_sorted _ _ _,
      fun c hc h1 => buildConsensus_rank_one_max _ _ _ hc h1,
      buildConsensus_tie_pairwise _ _ _⟩

/-- Witness for C4 at the tie input (B then A, both weight 5). -/
theorem C4_rank_contiguous_desc_w :
    tieCon.map (fun c => c.rank) = List.range' 1 tieCon.length ∧
    List.Sorted conGE tieCon ∧
    (∀ c ∈ tieCon, c.rank = 1 →
      ∀ c2 ∈ tieCon, c2.totalWeight ≤ c.totalWeight) ∧
    tieCon.Pairwise (fun a b => a.totalWeight = b.totalWeight →
      valueLE a.stockName b.stockName) :=
  C4_rank_contiguous_desc tieHoldings none tieCon
    (newPathDiff tieCon) (by with_unfolding_all rfl)

end ETF
